import Mathlib

/-!
Verification development for the madrona job-scheduling / task-graph engine.

Shallow embedding notes:
* float scalars are modelled as exact rationals (ℚ); every property proved
  here depends only on field arithmetic and order, not on rounding.
* `Vector3.normalize` in the source divides by a float square root, which has
  no exact rational counterpart; the sim definitions take the normalization
  function as an explicit parameter `vn`, and every theorem quantifies over it.
* C++ arrays are modelled as total functions `Nat → α`, mutation as
  `Function.update`; relaxed atomic counters executed in an arbitrary
  sequential interleaving are modelled by folding the per-invocation body over
  an arbitrary permutation of the invocation indices.
-/

namespace Madrona

/-! ### Math library (src/include/madrona/math.inl) -/

structure Vector3 where
  x : ℚ
  y : ℚ
  z : ℚ
deriving DecidableEq, Repr

def Vector3.add (a b : Vector3) : Vector3 := ⟨a.x + b.x, a.y + b.y, a.z + b.z⟩

def Vector3.sub (a b : Vector3) : Vector3 := ⟨a.x - b.x, a.y - b.y, a.z - b.z⟩

def Vector3.smul (q : ℚ) (v : Vector3) : Vector3 := ⟨q * v.x, q * v.y, q * v.z⟩

structure Quat where
  w : ℚ
  x : ℚ
  y : ℚ
  z : ℚ
deriving DecidableEq, Repr

structure Diag3x3 where
  d0 : ℚ
  d1 : ℚ
  d2 : ℚ
deriving DecidableEq, Repr

/-- Mat3x4: four 3-component columns, as in the source. -/
structure Mat3x4 where
  c0 : Vector3
  c1 : Vector3
  c2 : Vector3
  c3 : Vector3
deriving DecidableEq, Repr

/-- `Mat3x4::fromTRS` (math.inl). The two-argument call sites use the
default identity scale `{1,1,1}`. -/
def Mat3x4.fromTRS (t : Vector3) (r : Quat) (s : Diag3x3) : Mat3x4 :=
  let x2 := r.x * r.x
  let y2 := r.y * r.y
  let z2 := r.z * r.z
  let xz := r.x * r.z
  let xy := r.x * r.y
  let yz := r.y * r.z
  let wx := r.w * r.x
  let wy := r.w * r.y
  let wz := r.w * r.z
  let ds : Diag3x3 := ⟨2 * s.d0, 2 * s.d1, 2 * s.d2⟩
  { c0 := ⟨s.d0 - ds.d0 * (y2 + z2), ds.d0 * (xy + wz), ds.d0 * (xz - wy)⟩
    c1 := ⟨ds.d1 * (xy - wz), s.d1 - ds.d1 * (x2 + z2), ds.d1 * (yz + wx)⟩
    c2 := ⟨ds.d2 * (xz + wy), ds.d2 * (yz - wx), s.d2 - ds.d2 * (x2 + y2)⟩
    c3 := t }

/-- `Mat3x4::txfmPoint` (math.inl). -/
def Mat3x4.txfmPoint (m : Mat3x4) (p : Vector3) : Vector3 :=
  (((m.c0.smul p.x).add (m.c1.smul p.y)).add (m.c2.smul p.z)).add m.c3

structure AABB where
  pMin : Vector3
  pMax : Vector3
deriving DecidableEq, Repr

/-- `AABB::overlaps` (math.inl): strict interval overlap on all three axes. -/
def AABB.overlaps (a o : AABB) : Bool :=
  decide (a.pMin.x < o.pMax.x ∧ o.pMin.x < a.pMax.x ∧
          a.pMin.y < o.pMax.y ∧ o.pMin.y < a.pMax.y ∧
          a.pMin.z < o.pMax.z ∧ o.pMin.z < a.pMax.z)

/-- `AABB::point` (math.inl). -/
def AABB.point (p : Vector3) : AABB := ⟨p, p⟩

/-- `AABB::expand` (math.inl): per axis, `if p < pMin then pMin := p else if
p > pMax then pMax := p`. -/
def AABB.expand (box : AABB) (p : Vector3) : AABB :=
  let box :=
    if p.x < box.pMin.x then { box with pMin := { box.pMin with x := p.x } }
    else if p.x > box.pMax.x then { box with pMax := { box.pMax with x := p.x } }
    else box
  let box :=
    if p.y < box.pMin.y then { box with pMin := { box.pMin with y := p.y } }
    else if p.y > box.pMax.y then { box with pMax := { box.pMax with y := p.y } }
    else box
  if p.z < box.pMin.z then { box with pMin := { box.pMin with z := p.z } }
  else if p.z > box.pMax.z then { box with pMax := { box.pMax with z := p.z } }
  else box

/-- `std::clamp(v, lo, hi)`: `v < lo ? lo : (hi < v ? hi : v)`. -/
def clampQ (v lo hi : ℚ) : ℚ := if v < lo then lo else if hi < v then hi else v

/-! ### Simulation state (src/examples/simple_taskgraph/simple.cpp) -/

structure SphereObject where
  translation : Vector3
  rotation : Quat
  aabb : AABB
deriving DecidableEq, Repr

structure ContactData where
  normal : Vector3
  a : Nat
  b : Nat
deriving DecidableEq, Repr

structure SimpleSim where
  worldBounds : AABB
  sphereObjects : Nat → SphereObject
  numSphereObjects : Nat
  contacts : Nat → ContactData
  numContacts : Nat

structure SphereIndex where
  world : Nat
  offset : Nat
deriving DecidableEq, Repr

structure TestIndex where
  world : Nat
  a : Nat
  b : Nat
deriving DecidableEq, Repr

structure CandidatePair where
  world : Nat
  a : Nat
  b : Nat
deriving DecidableEq, Repr

structure SimManager where
  sims : Nat → SimpleSim
  sphereIndices : Nat → SphereIndex
  testIndices : Nat → TestIndex
  candidatePairs : Nat → CandidatePair

/-- `preprocessObject` (simple.cpp): clamp translation to world bounds, build
the model matrix, transform the 8 corners of a 2-unit cube and rebuild the
AABB from them. -/
def preprocessObject (sim : SimpleSim) (obj_id : Nat) : SimpleSim :=
  let object := sim.sphereObjects obj_id
  let t : Vector3 :=
    ⟨clampQ object.translation.x sim.worldBounds.pMin.x sim.worldBounds.pMax.x,
     clampQ object.translation.y sim.worldBounds.pMin.y sim.worldBounds.pMax.y,
     clampQ object.translation.z sim.worldBounds.pMin.z sim.worldBounds.pMax.z⟩
  let model_mat := Mat3x4.fromTRS t object.rotation ⟨1, 1, 1⟩
  let cube : List Vector3 :=
    [model_mat.txfmPoint ⟨-1, -1, -1⟩,
     model_mat.txfmPoint ⟨1, -1, -1⟩,
     model_mat.txfmPoint ⟨1, 1, -1⟩,
     model_mat.txfmPoint ⟨-1, 1, -1⟩,
     model_mat.txfmPoint ⟨-1, -1, 1⟩,
     model_mat.txfmPoint ⟨1, -1, 1⟩,
     model_mat.txfmPoint ⟨1, 1, 1⟩,
     model_mat.txfmPoint ⟨-1, 1, 1⟩]
  let aabb := (cube.drop 1).foldl AABB.expand (AABB.point (cube.headD ⟨0, 0, 0⟩))
  let object := { object with translation := t, aabb := aabb }
  { sim with sphereObjects := Function.update sim.sphereObjects obj_id object }

/-- `compareObjAABBs` (simple.cpp). -/
def compareObjAABBs (sim : SimpleSim) (a_idx b_idx : Nat) : Bool :=
  if a_idx = b_idx then false
  else ((sim.sphereObjects a_idx).aabb).overlaps ((sim.sphereObjects b_idx).aabb)

/-- `narrowPhase<use_atomic>` (simple.cpp). `vn` abstracts
`Vector3::normalize` (float sqrt). The `use_atomic` branch mirrors
`fetch_add`; the other branch mirrors the non-atomic load-then-store. Both
then store the contact at the claimed index. -/
def narrowPhase (use_atomic : Bool) (vn : Vector3 → Vector3)
    (sim : SimpleSim) (a_idx b_idx : Nat) : SimpleSim :=
  let a := sim.sphereObjects a_idx
  let b := sim.sphereObjects b_idx
  let to_b := vn (b.translation.sub a.translation)
  let step : Nat × SimpleSim :=
    if use_atomic then
      (sim.numContacts, { sim with numContacts := sim.numContacts + 1 })
    else
      let contact_idx := sim.numContacts
      (contact_idx, { sim with numContacts := contact_idx + 1 })
  let contacts := Function.update step.2.contacts step.1 ⟨to_b, a_idx, b_idx⟩
  { step.2 with contacts := contacts }

/-- `processContacts` (simple.cpp): for each stored contact push the two
objects apart along the contact normal. -/
def processContacts (sim : SimpleSim) : SimpleSim :=
  let num_contacts := sim.numContacts
  (List.range num_contacts).foldl
    (fun s i =>
      let contact := s.contacts i
      let a := s.sphereObjects contact.a
      let a := { a with translation := a.translation.sub contact.normal }
      let objs := Function.update s.sphereObjects contact.a a
      let s := { s with sphereObjects := objs }
      let b := s.sphereObjects contact.b
      let b := { b with translation := b.translation.add contact.normal }
      let objs2 := Function.update s.sphereObjects contact.b b
      { s with sphereObjects := objs2 })
    sim

/-- `SolverSystem::run` (simple.cpp): process contacts for the world given by
the invocation offset, then store 0 to `numContacts`. -/
def SolverSystem.run (mgr : SimManager) (invocation_offset : Nat) : SimManager :=
  let world_idx := invocation_offset
  let sim := mgr.sims world_idx
  let sim := processContacts sim
  let sim := { sim with numContacts := 0 }
  { mgr with sims := Function.update mgr.sims world_idx sim }

/-- `NarrowphaseSystem::run` (simple.cpp): read the candidate pair for this
invocation and run the atomic narrow phase on it. -/
def NarrowphaseSystem.run (vn : Vector3 → Vector3) (mgr : SimManager)
    (invocation_offset : Nat) : SimManager :=
  let c := mgr.candidatePairs invocation_offset
  let sims := Function.update mgr.sims c.world
    (narrowPhase true vn (mgr.sims c.world) c.a c.b)
  { mgr with sims := sims }

/-- `UnifiedSystem::run` (simple.cpp): one invocation per world doing the
whole pipeline serially, with the non-atomic `narrowPhase<false>`. -/
def UnifiedSystem.run (vn : Vector3 → Vector3) (mgr : SimManager)
    (invocation_offset : Nat) : SimManager :=
  let world_idx := invocation_offset
  let sim := mgr.sims world_idx
  let sim := (List.range sim.numSphereObjects).foldl preprocessObject sim
  let sim := (List.range sim.numSphereObjects).foldl
    (fun s i =>
      (List.range s.numSphereObjects).foldl
        (fun s2 j =>
          if compareObjAABBs s2 i j then narrowPhase false vn s2 i j else s2)
        s)
    sim
  let sim := processContacts sim
  let sim := { sim with numContacts := 0 }
  { mgr with sims := Function.update mgr.sims world_idx sim }

/-! ### Broadphase producer instrumentation (C3)

`BroadphaseSystem::run` claims a slot in `narrow.numInvocations` by relaxed
`fetch_add` and writes `candidatePairs[slot]`. Its invocations read only the
immutable `SimManager` data, so an arbitrary concurrent execution is modelled
by folding the invocation body over an arbitrary permutation of the
invocation offsets. `candidatePairs` is tracked as `Option` and every store
is appended to a ghost `storeLog`, to express the write-once property. -/

structure BroadphaseState where
  narrowNumInvocations : Nat
  candidatePairs : Nat → Option CandidatePair
  storeLog : List Nat

/-- Initial broadphase state of an epoch: `PreprocessSystem::run` at
invocation 0 resets `narrow.numInvocations` to 0 before broadphase runs. -/
def broadInit : BroadphaseState :=
  { narrowNumInvocations := 0, candidatePairs := fun _ => none, storeLog := [] }

/-- The overlap test of `BroadphaseSystem::run` at one invocation offset:
look up the test triple and compare the two objects' AABBs. -/
def broadOverlap (mgr : SimManager) (invocation_offset : Nat) : Bool :=
  let test := mgr.testIndices invocation_offset
  compareObjAABBs (mgr.sims test.world) test.a test.b

/-- `BroadphaseSystem::run` (simple.cpp): on overlap, fetch-add the narrow
counter to claim `candidate_idx` and store the candidate pair there. -/
def BroadphaseSystem.run (mgr : SimManager) (st : BroadphaseState)
    (invocation_offset : Nat) : BroadphaseState :=
  let test := mgr.testIndices invocation_offset
  if broadOverlap mgr invocation_offset then
    let candidate_idx := st.narrowNumInvocations
    { narrowNumInvocations := candidate_idx + 1,
      candidatePairs := Function.update st.candidatePairs candidate_idx
        (some ⟨test.world, test.a, test.b⟩),
      storeLog := st.storeLog ++ [candidate_idx] }
  else
    st

/-- All broadphase invocations executed in the interleaving given by
`order`. -/
def broadphaseRunAll (mgr : SimManager) (order : List Nat) : BroadphaseState :=
  order.foldl (BroadphaseSystem.run mgr) broadInit

/-! ### Job system (src/include/madrona/job.inl, src/include/madrona/utils.hpp) -/

/-- `utils::isPower2` (utils.hpp): `(v & (v - 1)) == 0`. -/
def isPower2 (v : Nat) : Bool := (v &&& (v - 1)) == 0

structure JobID where
  id : Nat
deriving DecidableEq, Repr

inductive JobPriority where
  | high
  | normal
  | io
deriving DecidableEq, Repr

/-- Configured allocator bounds (`Alloc::maxJobSize`,
`Alloc::maxJobAlignment`); their concrete values live outside the given
sources, so they are parameters of the model. -/
structure AllocCfg where
  maxJobSize : Nat
  maxJobAlignment : Nat
deriving DecidableEq, Repr

/-- State of the per-worker job allocators. Blocks carry fresh abstract
addresses. `allocLog`/`deallocLog` are ghost logs recording, for each
allocator call, the index of the worker whose allocator was used. -/
structure AllocState where
  nextPtr : Nat
  live : List (Nat × Nat)
  allocLog : List (Nat × Nat × Nat)
  deallocLog : List (Nat × Nat × Nat)
deriving DecidableEq, Repr

/-- `job_allocs_[thread_idx].alloc(alloc_state_, size, alignment)`: returns
fresh storage for the payload. -/
def JobAlloc.alloc (st : AllocState) (thread_idx size _alignment : Nat) :
    Nat × AllocState :=
  (st.nextPtr,
   { nextPtr := st.nextPtr + 1,
     live := st.live ++ [(st.nextPtr, size)],
     allocLog := st.allocLog ++ [(thread_idx, st.nextPtr, size)],
     deallocLog := st.deallocLog })

/-- `JobManager::deallocJob` (job.inl): frees through the allocator indexed
by `worker_idx`. -/
def JobManager.deallocJob (st : AllocState) (worker_idx ptr num_bytes : Nat) :
    AllocState :=
  { st with
    live := st.live.filter (fun b => b.1 != ptr),
    deallocLog := st.deallocLog ++ [(worker_idx, ptr, num_bytes)] }

/-- The two shapes of `job.func_` built by `JobManager::makeJob`: the
empty-capture lambda reconstructs `Fn` inline and never touches the
allocator; the capturing lambda runs the stored callable, destroys it, and
deallocates `job_size` bytes through the executing worker's allocator. -/
inductive JobFunc where
  | emptyCapture
  | heapCapture (job_size : Nat)
deriving DecidableEq, Repr

structure Job where
  func : JobFunc
  data : Option Nat
deriving DecidableEq, Repr

structure Context where
  worker_idx : Nat
deriving DecidableEq, Repr

/-- `JobManager::makeJob` (job.inl). `is_empty_fn` mirrors
`std::is_empty_v<Fn>`; the three guards mirror the `static_assert`s on
`job_size`/`job_alignment`, which reject the payload before any allocation
happens. -/
def JobManager.makeJob (cfg : AllocCfg) (is_empty_fn : Bool)
    (job_size job_alignment thread_idx : Nat) (st : AllocState) :
    Except String (Job × AllocState) :=
  if is_empty_fn then
    .ok ({ func := .emptyCapture, data := none }, st)
  else if ¬ (job_size ≤ cfg.maxJobSize) then
    .error "Job lambda capture is too large"
  else if ¬ (job_alignment ≤ cfg.maxJobAlignment) then
    .error "Job lambda capture has too large an alignment requirement"
  else if ¬ (isPower2 job_alignment = true) then
    .error "alignment must be a power of 2"
  else
    let r := JobAlloc.alloc st thread_idx job_size job_alignment
    .ok ({ func := .heapCapture job_size, data := some r.1 }, r.2)

/-- Observable events of one job execution. -/
inductive JobEvent where
  | runCallable
  | destroyCallable
  | deallocCall (worker_idx ptr num_bytes : Nat)
deriving DecidableEq, Repr

/-- Executing `job.func_(ctx, job.data_)`: the empty-capture lambda only runs
the callable; the capturing lambda runs it, destroys it, then calls
`ctx.job_mgr_->deallocJob(ctx.worker_idx_, fn_ptr, job_size)`. -/
def JobManager.execJob (job : Job) (ctx : Context) (st : AllocState) :
    AllocState × List JobEvent :=
  match job.func, job.data with
  | .emptyCapture, _ => (st, [.runCallable])
  | .heapCapture job_size, some ptr =>
      (JobManager.deallocJob st ctx.worker_idx ptr job_size,
       [.runCallable, .destroyCallable,
        .deallocCall ctx.worker_idx ptr job_size])
  | .heapCapture _, none => (st, [])

/-- The record `Context::queueJob` (job.inl) forwards to
`JobManager::queueJob`: the source discards `is_child` and the dependency
pack (`(void)dependencies, ...`) and passes `nullptr, 0,
JobPriority::Normal`. -/
structure QueuedJobRecord where
  thread_idx : Nat
  deps : List JobID
  num_dependencies : Nat
  prio : JobPriority
deriving DecidableEq, Repr

/-- `Context::queueJob` (job.inl). -/
def Context.queueJob (ctx : Context) (_is_child : Bool)
    (_dependencies : List JobID) : QueuedJobRecord :=
  { thread_idx := ctx.worker_idx,
    deps := [],
    num_dependencies := 0,
    prio := .normal }

/-- Modelled from the spec: the readiness rule of `JobManager::queueJob`
(whose implementation is not among the given sources) — "A Job becomes ready
the instant its remaining-dependency count (atomically decremented once per
completing dependency) reaches zero"; a job is eligible immediately exactly
when no submitted dependency is still outstanding. -/
def eligibleImmediately (q : QueuedJobRecord) (completed : List JobID) : Bool :=
  (q.deps.filter (fun d => !(completed.contains d))).length == 0

/-! ### TaskGraph execution model (C2, C4)

Modelled from the spec: the `TaskGraph`/`Builder`/`run()` implementation is
not among the given sources. Per spec §4.4/§5: the graph is a topologically
ordered list of Systems, each with a (finalized) invocation count and
upstream dependency list; invocations of one System may run in any order and
interleaving, but no invocation of a System may start before every
invocation of every dependency has finished. An execution is a list of
start/finish events checked against that rule. -/

structure SysSpec where
  numInvocations : Nat
  deps : List Nat
deriving DecidableEq, Repr, Inhabited

inductive TGEvent where
  | start (sys inv : Nat)
  | finish (sys inv : Nat)
deriving DecidableEq, Repr, Inhabited

structure TGState where
  started : Nat → Nat → Bool
  finished : Nat → Nat → Bool

def TGState.init : TGState := ⟨fun _ _ => false, fun _ _ => false⟩

/-- Every invocation of System `s` has finished. -/
def sysDone (g : List SysSpec) (st : TGState) (s : Nat) : Bool :=
  (List.range (g.getD s default).numInvocations).all (fun i => st.finished s i)

/-- An invocation may start iff it is in range, not yet started, and every
dependency System has completed all of its invocations. -/
def canStart (g : List SysSpec) (st : TGState) (s i : Nat) : Bool :=
  decide (s < g.length) &&
  decide (i < (g.getD s default).numInvocations) &&
  !(st.started s i) &&
  (g.getD s default).deps.all (fun d => sysDone g st d)

def okEvent (g : List SysSpec) (st : TGState) : TGEvent → Bool
  | .start s i => canStart g st s i
  | .finish s i => st.started s i && !(st.finished s i)

def applyEvent (st : TGState) : TGEvent → TGState
  | .start s i =>
      { st with started := fun s2 i2 =>
          if s2 = s ∧ i2 = i then true else st.started s2 i2 }
  | .finish s i =>
      { st with finished := fun s2 i2 =>
          if s2 = s ∧ i2 = i then true else st.finished s2 i2 }

/-- A trace is valid from state `st` if every event, in order, is permitted
in the state reached so far. -/
def validFrom (g : List SysSpec) (st : TGState) : List TGEvent → Bool
  | [] => true
  | e :: tr => okEvent g st e && validFrom g (applyEvent st e) tr

def finalState (st : TGState) (tr : List TGEvent) : TGState :=
  tr.foldl applyEvent st

/-- One `run()` has completed: every invocation of every System finished. -/
def completeRun (g : List SysSpec) (tr : List TGEvent) : Bool :=
  (List.range g.length).all (fun s =>
    (List.range (g.getD s default).numInvocations).all (fun i =>
      (finalState TGState.init tr).finished s i))

/-- Invocation indices of the start events of System `s`, in trace order. -/
def startIndices (s : Nat) : List TGEvent → List Nat
  | [] => []
  | .start s2 i :: tr =>
      if s2 = s then i :: startIndices s tr else startIndices s tr
  | .finish _ _ :: tr => startIndices s tr

/-! ### Auxiliary definitions for the proofs -/

/-- Invariant of the broadphase producer state: the claimed slots are exactly
`0, …, count−1`, in claim order, and `candidatePairs` is populated exactly on
the claimed slots. -/
def BroadInv (st : BroadphaseState) : Prop :=
  st.storeLog = List.range st.narrowNumInvocations ∧
  ∀ i, (st.candidatePairs i).isSome = true ↔ i < st.narrowNumInvocations

/-- Concrete fixture: a unit-ish sphere object whose AABB is the cube
`[lo, lo+2]³`. -/
def objEx (lo : ℚ) : SphereObject :=
  { translation := ⟨lo, lo, lo⟩,
    rotation := ⟨1, 0, 0, 0⟩,
    aabb := ⟨⟨lo, lo, lo⟩, ⟨lo + 2, lo + 2, lo + 2⟩⟩ }

/-- Concrete fixture: one world with two overlapping spheres. -/
def simEx : SimpleSim :=
  { worldBounds := ⟨⟨-100, -100, -100⟩, ⟨100, 100, 100⟩⟩,
    sphereObjects := fun i => if i = 0 then objEx 0 else objEx 1,
    numSphereObjects := 2,
    contacts := fun _ => ⟨⟨0, 0, 0⟩, 0, 0⟩,
    numContacts := 0 }

/-- Concrete fixture: the 2×2 pairwise test indices over `simEx`. -/
def mgrEx : SimManager :=
  { sims := fun _ => simEx,
    sphereIndices := fun i => ⟨0, i⟩,
    testIndices := fun o => ⟨0, o / 2, o % 2⟩,
    candidatePairs := fun _ => ⟨0, 0, 0⟩ }

/-- Concrete fixture: an empty allocator state. -/
def allocSt0 : AllocState := ⟨0, [], [], []⟩

/-! ## Theorems -/

/-- `AABB::overlaps` is symmetric: the conjunction of strict comparisons is
invariant under swapping the two boxes. -/
theorem AABB.overlaps_comm (a b : AABB) : a.overlaps b = b.overlaps a := by
  simp only [AABB.overlaps, decide_eq_decide]
  tauto

/-- C9: AABB overlap testing is symmetric, and consequently
`compareObjAABBs sim i j = compareObjAABBs sim j i` for every pair of object
indices, so the broadphase flags the ordered pairs (i, j) and (j, i)
identically. -/
theorem overlaps_and_compare_symmetric :
    (∀ a b : AABB, a.overlaps b = b.overlaps a) ∧
    ∀ (sim : SimpleSim) (i j : Nat),
      compareObjAABBs sim i j = compareObjAABBs sim j i := by
  refine ⟨AABB.overlaps_comm, ?_⟩
  intro sim i j
  unfold compareObjAABBs
  by_cases h : i = j
  · subst h; rfl
  · rw [if_neg h, if_neg (fun hh => h hh.symm), AABB.overlaps_comm]

/-- C8: executed sequentially from the same `SimpleSim` state, the atomic
(`fetch_add`) and non-atomic (load-then-store) variants of `narrowPhase` are
the same state transformer: both increment `numContacts` by exactly one and
write the same `ContactData` to the slot given by the old count, leaving all
other contact slots unchanged. -/
theorem narrowPhase_atomic_nonatomic_equiv (vn : Vector3 → Vector3)
    (sim : SimpleSim) (a_idx b_idx : Nat) :
    narrowPhase true vn sim a_idx b_idx = narrowPhase false vn sim a_idx b_idx ∧
    (narrowPhase true vn sim a_idx b_idx).numContacts = sim.numContacts + 1 ∧
    (narrowPhase true vn sim a_idx b_idx).contacts sim.numContacts =
      ⟨vn ((sim.sphereObjects b_idx).translation.sub
            (sim.sphereObjects a_idx).translation), a_idx, b_idx⟩ ∧
    ∀ k, k ≠ sim.numContacts →
      (narrowPhase true vn sim a_idx b_idx).contacts k = sim.contacts k := by
  refine ⟨rfl, rfl, ?_, ?_⟩
  · simp [narrowPhase, Function.update_same]
  · intro k hk
    simp [narrowPhase, Function.update_noteq hk]

/-- C10: after `SolverSystem::run` (or `UnifiedSystem::run`) completes for a
world, that world's `numContacts` is zero: both end by storing 0, so every
subsequent epoch accumulates contacts from zero. -/
theorem epoch_ends_with_zero_contacts (vn : Vector3 → Vector3)
    (mgr : SimManager) (world_idx : Nat) :
    ((SolverSystem.run mgr world_idx).sims world_idx).numContacts = 0 ∧
    ((UnifiedSystem.run vn mgr world_idx).sims world_idx).numContacts = 0 := by
  constructor
  · simp [SolverSystem.run, Function.update_same]
  · simp [UnifiedSystem.run, Function.update_same]

/-- C1 (failing direction, evaluated at the failing input):
`Context::queueJob` discards its dependency arguments — for a job submitted
with 5 pending dependencies it forwards `nullptr, 0` to
`JobManager::queueJob`, so the job's remaining-dependency count is 0 and it
is eligible immediately even though none of its 5 dependencies has
completed. -/
theorem queueJob_discards_dependencies :
    (Context.queueJob ⟨0⟩ false [⟨0⟩, ⟨1⟩, ⟨2⟩, ⟨3⟩, ⟨4⟩]).num_dependencies = 0 ∧
    (Context.queueJob ⟨0⟩ false [⟨0⟩, ⟨1⟩, ⟨2⟩, ⟨3⟩, ⟨4⟩]).deps = [] ∧
    eligibleImmediately (Context.queueJob ⟨0⟩ false [⟨0⟩, ⟨1⟩, ⟨2⟩, ⟨3⟩, ⟨4⟩]) []
      = true :=
  ⟨rfl, rfl, rfl⟩

/-- C7: for an empty (captureless) callable, `JobManager::makeJob` performs
no allocator call — the job's data pointer is null and the allocator state is
returned untouched — and executing the job only runs the inline-reconstructed
callable, leaving every arena unchanged. -/
theorem empty_job_bypasses_allocator (cfg : AllocCfg)
    (job_size job_alignment thread_idx : Nat) (st : AllocState) (ctx : Context) :
    JobManager.makeJob cfg true job_size job_alignment thread_idx st =
      .ok ({ func := .emptyCapture, data := none }, st) ∧
    JobManager.execJob { func := .emptyCapture, data := none } ctx st =
      (st, [.runCallable]) :=
  ⟨rfl, rfl⟩

/-- C6: a non-empty payload whose size or alignment exceeds the configured
maximum is rejected fatally before any allocation; under the precondition
that size and alignment are within the limits (and the alignment is a power
of two, as C++ alignments always are) the failure branch is unreachable and
the job is created. -/
theorem makeJob_size_alignment_guard (cfg : AllocCfg)
    (job_size job_alignment thread_idx : Nat) (st : AllocState) :
    (cfg.maxJobSize < job_size ∨ cfg.maxJobAlignment < job_alignment →
      ∃ msg, JobManager.makeJob cfg false job_size job_alignment thread_idx st
        = .error msg) ∧
    (job_size ≤ cfg.maxJobSize → job_alignment ≤ cfg.maxJobAlignment →
      isPower2 job_alignment = true →
      JobManager.makeJob cfg false job_size job_alignment thread_idx st =
        .ok ({ func := .heapCapture job_size, data := some st.nextPtr },
             (JobAlloc.alloc st thread_idx job_size job_alignment).2)) := by
  constructor
  · rintro (h | h)
    · exact ⟨"Job lambda capture is too large",
        by simp [JobManager.makeJob, Nat.not_le.mpr h]⟩
    · by_cases hs : job_size ≤ cfg.maxJobSize
      · exact ⟨"Job lambda capture has too large an alignment requirement",
          by simp [JobManager.makeJob, hs, Nat.not_le.mpr h]⟩
      · exact ⟨"Job lambda capture is too large",
          by simp [JobManager.makeJob, hs]⟩
  · intro h1 h2 h3
    simp [JobManager.makeJob, JobAlloc.alloc, h1, h2, h3]

/-- C6 witness: both guard directions at concrete inputs. -/
theorem makeJob_size_alignment_guard_witness :
    (∃ msg, JobManager.makeJob ⟨64, 8⟩ false 100 4 0 allocSt0 = .error msg) ∧
    JobManager.makeJob ⟨64, 8⟩ false 16 4 0 allocSt0 =
      .ok ({ func := .heapCapture 16, data := some allocSt0.nextPtr },
           (JobAlloc.alloc allocSt0 0 16 4).2) :=
  ⟨(makeJob_size_alignment_guard ⟨64, 8⟩ 100 4 0 allocSt0).1 (Or.inl (by decide)),
   (makeJob_size_alignment_guard ⟨64, 8⟩ 16 4 0 allocSt0).2 (by decide) (by decide)
     (by decide)⟩

/-- C5: for a job with a non-empty payload built by `JobManager::makeJob`,
executing the job's stored function runs the captured callable exactly once,
destroys it, and then deallocates the payload storage exactly once — through
the allocator indexed by the executing worker (`ctx.worker_idx`), which may
differ from the allocating `thread_idx`; the dealloc event strictly follows
the run event and the storage returns to exactly the pre-allocation live
set. -/
theorem job_lifecycle_exactly_once (cfg : AllocCfg)
    (job_size job_alignment thread_idx : Nat) (st : AllocState) (ctx : Context)
    (h1 : job_size ≤ cfg.maxJobSize) (h2 : job_alignment ≤ cfg.maxJobAlignment)
    (h3 : isPower2 job_alignment = true)
    (hfresh : ∀ b ∈ st.live, b.1 ≠ st.nextPtr) :
    ∃ job st1,
      JobManager.makeJob cfg false job_size job_alignment thread_idx st =
        .ok (job, st1) ∧
      job.data = some st.nextPtr ∧
      st1.allocLog = st.allocLog ++ [(thread_idx, st.nextPtr, job_size)] ∧
      (JobManager.execJob job ctx st1).2 =
        [.runCallable, .destroyCallable,
         .deallocCall ctx.worker_idx st.nextPtr job_size] ∧
      (JobManager.execJob job ctx st1).2.count JobEvent.runCallable = 1 ∧
      (JobManager.execJob job ctx st1).2.count
        (JobEvent.deallocCall ctx.worker_idx st.nextPtr job_size) = 1 ∧
      (JobManager.execJob job ctx st1).2.indexOf JobEvent.runCallable <
        (JobManager.execJob job ctx st1).2.indexOf
          (JobEvent.deallocCall ctx.worker_idx st.nextPtr job_size) ∧
      (JobManager.execJob job ctx st1).1.deallocLog =
        st1.deallocLog ++ [(ctx.worker_idx, st.nextPtr, job_size)] ∧
      (JobManager.execJob job ctx st1).1.live = st.live := by
  refine ⟨{ func := .heapCapture job_size, data := some st.nextPtr },
    (JobAlloc.alloc st thread_idx job_size job_alignment).2, ?_, rfl, rfl,
    rfl, ?_, ?_, ?_, rfl, ?_⟩
  · simp [JobManager.makeJob, JobAlloc.alloc, h1, h2, h3]
  · simp [JobManager.execJob, List.count_cons]
  · simp [JobManager.execJob, List.count_cons]
  · simp [JobManager.execJob, List.indexOf_cons]
  · show (JobManager.deallocJob _ _ _ _).live = st.live
    simp only [JobManager.deallocJob, JobAlloc.alloc, List.filter_append]
    rw [List.filter_eq_self.mpr, List.filter_cons]
    · simp
    · intro b hb
      simpa using hfresh b hb

/-- C5 witness: a concrete job of 16 bytes allocated by worker 0 and executed
(and freed) by worker 3. -/
theorem job_lifecycle_exactly_once_witness :
    16 ≤ (64 : Nat) ∧
    ∃ job st1,
      JobManager.makeJob ⟨64, 8⟩ false 16 4 0 allocSt0 = .ok (job, st1) ∧
      job.data = some allocSt0.nextPtr ∧
      st1.allocLog = allocSt0.allocLog ++ [(0, allocSt0.nextPtr, 16)] ∧
      (JobManager.execJob job ⟨3⟩ st1).2 =
        [.runCallable, .destroyCallable,
         .deallocCall (Context.mk 3).worker_idx allocSt0.nextPtr 16] ∧
      (JobManager.execJob job ⟨3⟩ st1).2.count JobEvent.runCallable = 1 ∧
      (JobManager.execJob job ⟨3⟩ st1).2.count
        (JobEvent.deallocCall (Context.mk 3).worker_idx allocSt0.nextPtr 16) = 1 ∧
      (JobManager.execJob job ⟨3⟩ st1).2.indexOf JobEvent.runCallable <
        (JobManager.execJob job ⟨3⟩ st1).2.indexOf
          (JobEvent.deallocCall (Context.mk 3).worker_idx allocSt0.nextPtr 16) ∧
      (JobManager.execJob job ⟨3⟩ st1).1.deallocLog =
        st1.deallocLog ++ [((Context.mk 3).worker_idx, allocSt0.nextPtr, 16)] ∧
      (JobManager.execJob job ⟨3⟩ st1).1.live = allocSt0.live :=
  ⟨by decide,
   job_lifecycle_exactly_once ⟨64, 8⟩ 16 4 0 allocSt0 ⟨3⟩ (by decide) (by decide)
     (by decide) (by intro b hb; simp [allocSt0] at hb)⟩

/-! ### C3 helper lemmas -/

/-- One broadphase invocation preserves the slot-accounting invariant. -/
theorem broad_step_inv (mgr : SimManager) (st : BroadphaseState) (o : Nat)
    (h : BroadInv st) : BroadInv (BroadphaseSystem.run mgr st o) := by
  obtain ⟨hlog, hpairs⟩ := h
  unfold BroadphaseSystem.run
  by_cases hov : broadOverlap mgr o
  · rw [if_pos hov]
    refine ⟨?_, ?_⟩
    · simpa [hlog] using (List.range_succ (n := st.narrowNumInvocations)).symm
    · intro i
      by_cases hi : i = st.narrowNumInvocations
      · subst hi
        simp [Function.update_same]
      · simp only [Function.update_noteq hi]
        rw [hpairs i]
        omega
  · rw [if_neg hov]
    exact ⟨hlog, hpairs⟩

/-- Folding broadphase invocations preserves the invariant. -/
theorem broad_fold_inv (mgr : SimManager) (order : List Nat)
    (st : BroadphaseState) (h : BroadInv st) :
    BroadInv (order.foldl (BroadphaseSystem.run mgr) st) := by
  induction order generalizing st with
  | nil => exact h
  | cons o rest ih => exact ih _ (broad_step_inv mgr st o h)

/-- The final claimed count is the initial count plus the number of
overlapping tests among the executed invocations. -/
theorem broad_fold_count (mgr : SimManager) (order : List Nat)
    (st : BroadphaseState) :
    (order.foldl (BroadphaseSystem.run mgr) st).narrowNumInvocations =
      st.narrowNumInvocations + (order.filter (broadOverlap mgr)).length := by
  induction order generalizing st with
  | nil => simp
  | cons o rest ih =>
    rw [List.foldl_cons, ih, List.filter_cons]
    by_cases hov : broadOverlap mgr o
    · simp [BroadphaseSystem.run, hov]
      omega
    · simp [BroadphaseSystem.run, hov]

/-- C3: running all broadphase invocations in an arbitrary interleaving
`order` (a permutation of the `K` test offsets), starting from the epoch
reset of the narrow counter to 0: the consumer's final invocation count
equals the number of overlapping tests (= number of slots the producer
claimed), the claimed slots are exactly `0, …, count−1` each written exactly
once, `candidatePairs` is populated exactly on those slots, and the consumer
(whose invocation indices are `0, …, count−1`) consumes each claimed slot in
exactly one invocation. -/
theorem broadphase_dynamic_count_correct (mgr : SimManager)
    (order : List Nat) (K : Nat) (hperm : order.Perm (List.range K)) :
    (broadphaseRunAll mgr order).narrowNumInvocations =
      ((List.range K).filter (broadOverlap mgr)).length ∧
    (broadphaseRunAll mgr order).storeLog =
      List.range (broadphaseRunAll mgr order).narrowNumInvocations ∧
    (∀ i, ((broadphaseRunAll mgr order).candidatePairs i).isSome = true ↔
      i < (broadphaseRunAll mgr order).narrowNumInvocations) ∧
    (∀ i, i < (broadphaseRunAll mgr order).narrowNumInvocations →
      (broadphaseRunAll mgr order).storeLog.count i = 1 ∧
      (List.range (broadphaseRunAll mgr order).narrowNumInvocations).count i
        = 1) := by
  have hinv : BroadInv (broadphaseRunAll mgr order) := by
    refine broad_fold_inv mgr order broadInit ⟨rfl, ?_⟩
    intro i
    simp [broadInit]
  have hcount : (broadphaseRunAll mgr order).narrowNumInvocations =
      ((List.range K).filter (broadOverlap mgr)).length := by
    have := broad_fold_count mgr order broadInit
    rw [broadphaseRunAll, this]
    simp [broadInit, (hperm.filter (broadOverlap mgr)).length_eq]
  refine ⟨hcount, hinv.1, hinv.2, ?_⟩
  intro i hi
  have hr : (List.range
      (broadphaseRunAll mgr order).narrowNumInvocations).count i = 1 :=
    List.count_eq_one_of_mem (List.nodup_range _) (List.mem_range.mpr hi)
  exact ⟨by rw [hinv.1]; exact hr, hr⟩

/-- C3 witness: the 2-sphere fixture with its 4 pairwise tests, executed in
the interleaving `[2, 0, 3, 1]`; tests 1 and 2 overlap, so the narrow count
finalizes at 2. -/
theorem broadphase_dynamic_count_correct_witness :
    ([2, 0, 3, 1] : List Nat).Perm (List.range 4) ∧
    ((broadphaseRunAll mgrEx [2, 0, 3, 1]).narrowNumInvocations =
      ((List.range 4).filter (broadOverlap mgrEx)).length ∧
    (broadphaseRunAll mgrEx [2, 0, 3, 1]).storeLog =
      List.range (broadphaseRunAll mgrEx [2, 0, 3, 1]).narrowNumInvocations ∧
    (∀ i, ((broadphaseRunAll mgrEx [2, 0, 3, 1]).candidatePairs i).isSome = true ↔
      i < (broadphaseRunAll mgrEx [2, 0, 3, 1]).narrowNumInvocations) ∧
    (∀ i, i < (broadphaseRunAll mgrEx [2, 0, 3, 1]).narrowNumInvocations →
      (broadphaseRunAll mgrEx [2, 0, 3, 1]).storeLog.count i = 1 ∧
      (List.range
        (broadphaseRunAll mgrEx [2, 0, 3, 1]).narrowNumInvocations).count i
        = 1)) :=
  ⟨by decide, broadphase_dynamic_count_correct mgrEx [2, 0, 3, 1] 4 (by decide)⟩

/-! ### TaskGraph scheduler lemmas -/

/-- `started` flags are monotone under events. -/
theorem applyEvent_started_mono (st : TGState) (e : TGEvent) (a b : Nat)
    (h : st.started a b = true) : (applyEvent st e).started a b = true := by
  cases e with
  | start s2 i2 =>
    simp only [applyEvent]
    split
    · rfl
    · exact h
  | finish s2 i2 => exact h

/-- A `finish` event only adds to the `finished` flags. -/
theorem finalState_finished_iff (tr : List TGEvent) (st : TGState)
    (a b : Nat) :
    (finalState st tr).finished a b = true ↔
      st.finished a b = true ∨ TGEvent.finish a b ∈ tr := by
  induction tr generalizing st with
  | nil => simp [finalState]
  | cons e rest ih =>
    rw [show finalState st (e :: rest) = finalState (applyEvent st e) rest
          from rfl, ih]
    cases e with
    | start s2 i2 =>
      simp only [applyEvent, List.mem_cons]
      constructor
      · rintro (h | h)
        · exact Or.inl h
        · exact Or.inr (Or.inr h)
      · rintro (h | h | h)
        · exact Or.inl h
        · exact absurd h (by simp)
        · exact Or.inr h
    | finish s2 i2 =>
      by_cases hc : a = s2 ∧ b = i2
      · simp only [applyEvent, if_pos hc, List.mem_cons]
        constructor
        · intro _; exact Or.inr (Or.inl (by rw [hc.1, hc.2]))
        · intro _; exact Or.inl trivial
      · simp only [applyEvent, if_neg hc, List.mem_cons]
        constructor
        · rintro (h | h)
          · exact Or.inl h
          · exact Or.inr (Or.inr h)
        · rintro (h | h | h)
          · exact Or.inl h
          · cases h
            exact absurd ⟨rfl, rfl⟩ hc
          · exact Or.inr h

/-- A `start` event only adds to the `started` flags. -/
theorem finalState_started_iff (tr : List TGEvent) (st : TGState)
    (a b : Nat) :
    (finalState st tr).started a b = true ↔
      st.started a b = true ∨ TGEvent.start a b ∈ tr := by
  induction tr generalizing st with
  | nil => simp [finalState]
  | cons e rest ih =>
    rw [show finalState st (e :: rest) = finalState (applyEvent st e) rest
          from rfl, ih]
    cases e with
    | finish s2 i2 =>
      simp only [applyEvent, List.mem_cons]
      constructor
      · rintro (h | h)
        · exact Or.inl h
        · exact Or.inr (Or.inr h)
      · rintro (h | h | h)
        · exact Or.inl h
        · exact absurd h (by simp)
        · exact Or.inr h
    | start s2 i2 =>
      by_cases hc : a = s2 ∧ b = i2
      · simp only [applyEvent, if_pos hc, List.mem_cons]
        constructor
        · intro _; exact Or.inr (Or.inl (by rw [hc.1, hc.2]))
        · intro _; exact Or.inl trivial
      · simp only [applyEvent, if_neg hc, List.mem_cons]
        constructor
        · rintro (h | h)
          · exact Or.inl h
          · exact Or.inr (Or.inr h)
        · rintro (h | h | h)
          · exact Or.inl h
          · cases h
            exact absurd ⟨rfl, rfl⟩ hc
          · exact Or.inr h

/-- In a valid trace, the event at position `k` is permitted in the state
reached by the first `k` events. -/
theorem validFrom_ok_at (g : List SysSpec) (tr : List TGEvent) (st : TGState)
    (hv : validFrom g st tr = true) (k : Nat) (hk : k < tr.length) :
    okEvent g (finalState st (tr.take k)) (tr.getD k default) = true := by
  induction tr generalizing st k with
  | nil => simp at hk
  | cons e rest ih =>
    rw [validFrom, Bool.and_eq_true] at hv
    cases k with
    | zero => exact hv.1
    | succ k2 => exact ih (applyEvent st e) hv.2 k2 (by simpa using hk)

/-- An invocation already started can never start again in a valid trace. -/
theorem validFrom_no_restart (g : List SysSpec) (tr : List TGEvent)
    (st : TGState) (a b : Nat) (hv : validFrom g st tr = true)
    (hs : st.started a b = true) : TGEvent.start a b ∉ tr := by
  induction tr generalizing st with
  | nil => simp
  | cons e rest ih =>
    rw [validFrom, Bool.and_eq_true] at hv
    intro hmem
    rcases List.mem_cons.mp hmem with he | hmem2
    · subst he
      have h1 := hv.1
      simp [okEvent, canStart, hs] at h1
    · exact ih (applyEvent st e) hv.2 (applyEvent_started_mono st e a b hs) hmem2

/-- Each invocation starts at most once in a valid trace. -/
theorem validFrom_start_count (g : List SysSpec) (tr : List TGEvent)
    (st : TGState) (a b : Nat) (hv : validFrom g st tr = true)
    (hs : st.started a b = false) :
    tr.count (TGEvent.start a b) ≤ 1 := by
  induction tr generalizing st with
  | nil => simp
  | cons e rest ih =>
    rw [validFrom, Bool.and_eq_true] at hv
    by_cases he : e = TGEvent.start a b
    · subst he
      have hstarted : (applyEvent st (TGEvent.start a b)).started a b = true := by
        simp [applyEvent]
      have hnot : TGEvent.start a b ∉ rest :=
        validFrom_no_restart g rest _ a b hv.2 hstarted
      rw [List.count_cons]
      simp [List.count_eq_zero.mpr hnot]
    · have hpres : (applyEvent st e).started a b = false := by
        cases e with
        | start s2 i2 =>
          simp only [applyEvent]
          rw [if_neg]
          · exact hs
          · rintro ⟨h1, h2⟩
            exact he (by rw [h1, h2])
        | finish s2 i2 => exact hs
      have h2 := ih (applyEvent st e) hv.2 hpres
      rw [List.count_cons]
      simp only [beq_iff_eq, if_neg he]
      omega

/-- An element of a list occurs at some position, read through `getD`. -/
theorem mem_getD_exists {α : Type} [Inhabited α] (l : List α) (a : α)
    (h : a ∈ l) : ∃ n, n < l.length ∧ l.getD n default = a := by
  induction l with
  | nil => cases h
  | cons x xs ih =>
    rcases List.mem_cons.mp h with he | h2
    · exact ⟨0, by simp, he.symm⟩
    · obtain ⟨n, hn, hee⟩ := ih h2
      exact ⟨n + 1, by simpa using hn, by simpa using hee⟩

/-- Counting in `startIndices` is counting start events in the trace. -/
theorem startIndices_count (s : Nat) (tr : List TGEvent) (a : Nat) :
    (startIndices s tr).count a = tr.count (TGEvent.start s a) := by
  induction tr with
  | nil => rfl
  | cons e rest ih =>
    cases e with
    | start s2 i2 =>
      by_cases hs : s2 = s
      · subst hs
        simp only [startIndices, eq_self_iff_true, if_true, List.count_cons, ih]
        by_cases hi : i2 = a
        · subst hi
          simp
        · have h1 : (i2 == a) = false := by simp [hi]
          have h2 : (TGEvent.start s2 i2 == TGEvent.start s2 a) = false := by
            simp [hi]
          simp [h1, h2]
      · simp only [startIndices, if_neg hs, List.count_cons, ih]
        have hne : (TGEvent.start s2 i2 == TGEvent.start s a) = false := by
          simp only [beq_eq_false_iff_ne, ne_eq, TGEvent.start.injEq, not_and]
          intro hc
          exact absurd hc hs
        simp [hne]
    | finish s2 i2 =>
      simp only [startIndices, List.count_cons, ih]
      simp

/-- C2 (spec-modelled TaskGraph executor): for every dependency edge
`d ∈ deps(s2)`, in any valid execution trace every finish of an invocation of
`d` occurs strictly before any start of an invocation of `s2`: `q < p`
whenever position `p` starts `s2` and position `q` finishes invocation
`j < numInvocations d` of `d`. -/
theorem taskgraph_dependency_ordering (g : List SysSpec) (tr : List TGEvent)
    (s2 d i j p q : Nat)
    (hv : validFrom g TGState.init tr = true)
    (hd : d ∈ (g.getD s2 default).deps)
    (hj : j < (g.getD d default).numInvocations)
    (hp : p < tr.length) (hq : q < tr.length)
    (hep : tr.getD p default = TGEvent.start s2 i)
    (heq : tr.getD q default = TGEvent.finish d j) :
    q < p := by
  have hokp := validFrom_ok_at g tr TGState.init hv p hp
  rw [hep] at hokp
  have hfin : (finalState TGState.init (tr.take p)).finished d j = true := by
    simp only [okEvent, canStart, Bool.and_eq_true] at hokp
    have hall := hokp.2
    rw [List.all_eq_true] at hall
    have hdone := hall d hd
    rw [sysDone, List.all_eq_true] at hdone
    exact hdone j (List.mem_range.mpr hj)
  have hmem : TGEvent.finish d j ∈ tr.take p := by
    rcases (finalState_finished_iff (tr.take p) TGState.init d j).mp hfin with
      h | h
    · simp [TGState.init] at h
    · exact h
  by_contra hcon
  push_neg at hcon
  have hokq := validFrom_ok_at g tr TGState.init hv q hq
  rw [heq] at hokq
  simp only [okEvent, Bool.and_eq_true] at hokq
  have hfinq : (finalState TGState.init (tr.take q)).finished d j = false := by
    rcases hokq with ⟨-, hnf⟩
    cases hx : (finalState TGState.init (tr.take q)).finished d j
    · rfl
    · rw [hx] at hnf; simp at hnf
  have hmemq : TGEvent.finish d j ∈ tr.take q := by
    have heqtake : tr.take p = (tr.take q).take p := by
      rw [List.take_take, Nat.min_eq_left hcon]
    rw [heqtake] at hmem
    exact List.take_subset _ _ hmem
  have : (finalState TGState.init (tr.take q)).finished d j = true :=
    (finalState_finished_iff (tr.take q) TGState.init d j).mpr (Or.inr hmemq)
  rw [this] at hfinq
  exact Bool.noConfusion hfinq

/-- C2 witness: a two-System graph with the edge 0 → 1 and the unique valid
complete trace; the finish of System 0 at position 1 precedes the start of
System 1 at position 2. -/
theorem taskgraph_dependency_ordering_witness :
    validFrom [⟨1, []⟩, ⟨1, [0]⟩] TGState.init
      [TGEvent.start 0 0, TGEvent.finish 0 0,
       TGEvent.start 1 0, TGEvent.finish 1 0] = true ∧
    (1 : Nat) < 2 :=
  ⟨by decide,
   taskgraph_dependency_ordering [⟨1, []⟩, ⟨1, [0]⟩]
     [TGEvent.start 0 0, TGEvent.finish 0 0,
      TGEvent.start 1 0, TGEvent.finish 1 0]
     1 0 0 0 2 1 (by decide) (by decide) (by decide) (by decide) (by decide)
     (by decide) (by decide)⟩

/-- C4 (spec-modelled TaskGraph executor): for a System with invocation
count K, any valid trace of a complete `run()` starts it exactly K times,
with the invocation indices forming exactly `{0, …, K−1}`: no repeats, no
gaps. -/
theorem fixed_count_invocations_exact (g : List SysSpec) (tr : List TGEvent)
    (hv : validFrom g TGState.init tr = true)
    (hc : completeRun g tr = true) (s : Nat) (hs : s < g.length) :
    (startIndices s tr).Perm
      (List.range (g.getD s default).numInvocations) ∧
    (startIndices s tr).length = (g.getD s default).numInvocations := by
  have hperm : (startIndices s tr).Perm
      (List.range (g.getD s default).numInvocations) := by
    rw [List.perm_iff_count]
    intro a
    rw [startIndices_count]
    by_cases ha : a < (g.getD s default).numInvocations
    · rw [List.count_eq_one_of_mem (List.nodup_range _) (List.mem_range.mpr ha)]
      have hfin : (finalState TGState.init tr).finished s a = true := by
        rw [completeRun, List.all_eq_true] at hc
        have := hc s (List.mem_range.mpr hs)
        rw [List.all_eq_true] at this
        exact this a (List.mem_range.mpr ha)
      have hfinmem : TGEvent.finish s a ∈ tr := by
        rcases (finalState_finished_iff tr TGState.init s a).mp hfin with h | h
        · simp [TGState.init] at h
        · exact h
      obtain ⟨qv, hql, hqe⟩ := mem_getD_exists tr _ hfinmem
      have hok := validFrom_ok_at g tr TGState.init hv qv hql
      rw [hqe] at hok
      simp only [okEvent, Bool.and_eq_true] at hok
      have hstarted : (finalState TGState.init (tr.take qv)).started s a
          = true := hok.1
      have hstmem : TGEvent.start s a ∈ tr.take qv := by
        rcases (finalState_started_iff (tr.take qv) TGState.init s a).mp
          hstarted with h | h
        · simp [TGState.init] at h
        · exact h
      have h1 : 0 < tr.count (TGEvent.start s a) :=
        List.count_pos_iff.mpr (List.take_subset _ _ hstmem)
      have h2 : tr.count (TGEvent.start s a) ≤ 1 :=
        validFrom_start_count g tr TGState.init s a hv rfl
      omega
    · have hnot : TGEvent.start s a ∉ tr := by
        intro hmem
        obtain ⟨pv, hpl, hpe⟩ := mem_getD_exists tr _ hmem
        have hok := validFrom_ok_at g tr TGState.init hv pv hpl
        rw [hpe] at hok
        simp only [okEvent, canStart, Bool.and_eq_true,
          decide_eq_true_eq] at hok
        exact ha hok.1.1.2
      rw [List.count_eq_zero.mpr hnot,
        List.count_eq_zero.mpr (by rw [List.mem_range]; omega)]
  refine ⟨hperm, ?_⟩
  rw [hperm.length_eq, List.length_range]

/-- C4 witness: a single System with K = 2 run in reverse invocation order;
its start indices `[1, 0]` are a permutation of `{0, 1}` of length 2. -/
theorem fixed_count_invocations_exact_witness :
    validFrom [⟨2, []⟩] TGState.init
      [TGEvent.start 0 1, TGEvent.finish 0 1,
       TGEvent.start 0 0, TGEvent.finish 0 0] = true ∧
    completeRun [⟨2, []⟩]
      [TGEvent.start 0 1, TGEvent.finish 0 1,
       TGEvent.start 0 0, TGEvent.finish 0 0] = true ∧
    ((startIndices 0
        [TGEvent.start 0 1, TGEvent.finish 0 1,
         TGEvent.start 0 0, TGEvent.finish 0 0]).Perm
      (List.range ((([⟨2, []⟩] : List SysSpec).getD 0 default).numInvocations))
      ∧
     (startIndices 0
        [TGEvent.start 0 1, TGEvent.finish 0 1,
         TGEvent.start 0 0, TGEvent.finish 0 0]).length =
       (([⟨2, []⟩] : List SysSpec).getD 0 default).numInvocations) :=
  ⟨by decide, by decide,
   fixed_count_invocations_exact [⟨2, []⟩]
     [TGEvent.start 0 1, TGEvent.finish 0 1,
      TGEvent.start 0 0, TGEvent.finish 0 0]
     (by decide) (by decide) 0 (by decide)⟩

end Madrona
